import Mathlib

/-!
# Verification of the `rics` name-to-candidate mapping engine

The repository documents (in `docs/documentation/mapping-primer.rst`) a
mapping engine: a scoring pipeline (runtime overrides, static overrides,
filters, heuristics, base score function) producing a value x candidate
score matrix, followed by a cardinality-constrained matcher producing an
assignment and a set of unmapped values.

The implementation module `rics.mapping` is not part of the source tree
available here (only its documentation and callers are), so the engine is
modelled from the specification, faithful to its words.  All definitions
are executable; scores are extended rationals.
-/

namespace RicsMapping

/-- Modelled from the spec: a `Score` is "an extended real number (ordinary
floats, plus +inf and -inf)".  Finite scores are represented as rationals;
`posInf` denotes a forced accept, `negInf` a forced reject.
(The `rics.mapping` implementation is not under the source tree here.) -/
inductive Score where
  | negInf : Score
  | fin : ℚ → Score
  | posInf : Score
deriving DecidableEq, Repr

/-- Strict comparison of scores: `-inf < fin q < +inf`, finite scores are
compared as rationals. -/
def Score.blt : Score → Score → Bool
  | .negInf, .negInf => false
  | .negInf, _ => true
  | .fin _, .negInf => false
  | .fin a, .fin b => decide (a < b)
  | .fin _, .posInf => true
  | .posInf, _ => false

/-- Non-strict comparison of scores. -/
def Score.ble (a b : Score) : Bool := !(Score.blt b a)

/-- The larger of two scores. -/
def Score.max (a b : Score) : Score := if Score.blt a b then b else a

theorem Score.blt_irrefl (a : Score) : Score.blt a a = false := by
  cases a <;> simp [Score.blt]

theorem Score.ble_refl (a : Score) : Score.ble a a = true := by
  simp [Score.ble, Score.blt_irrefl]

theorem Score.blt_asymm {a b : Score} (h : Score.blt a b = true) :
    Score.blt b a = false := by
  cases a <;> cases b <;> simp_all [Score.blt]
  exact le_of_lt h

theorem Score.ble_of_blt {a b : Score} (h : Score.blt a b = true) :
    Score.ble a b = true := by
  simp [Score.ble, Score.blt_asymm h]

theorem Score.ble_max_left (a b : Score) : Score.ble a (Score.max a b) = true := by
  unfold Score.max
  by_cases h : Score.blt a b = true
  · simp [h, Score.ble_of_blt h]
  · simp [h, Score.ble_refl]

theorem Score.ble_negInf (a : Score) : Score.ble Score.negInf a = true := by
  cases a <;> simp [Score.ble, Score.blt]

theorem Score.ble_posInf (t : ℚ) : Score.ble (Score.fin t) Score.posInf = true := by
  simp [Score.ble, Score.blt]

theorem Score.not_ble_negInf (t : ℚ) :
    Score.ble (Score.fin t) Score.negInf = false := by
  simp [Score.ble, Score.blt]

theorem Score.ble_fin_fin (t s : ℚ) :
    Score.ble (Score.fin t) (Score.fin s) = decide (t ≤ s) := by
  by_cases h : s < t
  · simp [Score.ble, Score.blt, h, not_le.mpr h]
  · simp [Score.ble, Score.blt, h, not_lt.mp h]

abbrev Value : Type := String
abbrev Candidate : Type := String
abbrev Ctx : Type := String

/-- Modelled from the spec: the four cardinality policies of the matcher
(`rics.mapping.Cardinality`; the implementation module is not under the
source tree here). -/
inductive Cardinality where
  | OneToOne : Cardinality
  | OneToMany : Cardinality
  | ManyToOne : Cardinality
  | ManyToMany : Cardinality
deriving DecidableEq, Repr

/-- Modelled from the spec: a heuristic step is either a short-circuit
filter (returned candidates are treated as overrides) or an alias function
rewriting the `(value, candidates)` pair before scoring, optionally
mutating the working pair for subsequent steps. -/
inductive HStep where
  | shortCircuit (f : Value → List Candidate → Ctx → List Candidate) : HStep
  | aliasStep (doMutate : Bool) (f : Value → List Candidate → Ctx → Value × List Candidate) :
      HStep

/-- Whether a heuristic step is an alias step (as opposed to a
short-circuit filter). -/
def HStep.isAliasStep : HStep → Bool
  | .aliasStep _ _ => true
  | .shortCircuit _ => false

/-- Modelled from the spec: the configuration of a `rics.mapping.Mapper`:
base score function, runtime override function, two-level static override
table, filter functions, ordered heuristic steps, cardinality policy and
minimum-score threshold. -/
structure MapperConfig where
  scoreFn : Value → List Candidate → Ctx → List ℚ
  overrideFn : Value → List Candidate → Ctx → Option Candidate
  staticContextual : Ctx → Value → Option Candidate
  staticDefault : Value → Option Candidate
  filters : List (Value → List Candidate → Ctx → List Candidate)
  heuristics : List HStep
  cardinality : Cardinality
  threshold : ℚ

/-- Modelled from the spec: a row forced by an override or short-circuit:
the chosen candidates get `+inf`, every other candidate `-inf`. -/
def forcedRow (candidates chosen : List Candidate) : List Score :=
  candidates.map (fun c => if c ∈ chosen then Score.posInf else Score.negInf)

/-- Modelled from the spec: the heuristic composer loop.  Walks the step
list in order with a working `(value, candidates)` pair and the best score
seen so far for each original candidate.  A short-circuit step returning a
non-empty candidate list forces the row and skips all remaining steps; an
alias step rescores the rewritten pair and keeps the pointwise maximum.
A score-function result of the wrong length is a contract violation
(`none`). -/
def hgo (scoreFn : Value → List Candidate → Ctx → List ℚ) (ctx : Ctx)
    (origCands : List Candidate) :
    List HStep → Value → List Candidate → List Score → Option (List Score)
  | [], _, _, best => some best
  | .shortCircuit f :: rest, v, cs, best =>
    if (f v cs ctx).isEmpty then hgo scoreFn ctx origCands rest v cs best
    else some (forcedRow origCands (f v cs ctx))
  | .aliasStep doMutate f :: rest, v, cs, best =>
    if ((scoreFn (f v cs ctx).1 (f v cs ctx).2 ctx).map Score.fin).length = best.length then
      if doMutate then
        hgo scoreFn ctx origCands rest (f v cs ctx).1 (f v cs ctx).2
          (List.zipWith Score.max best
            ((scoreFn (f v cs ctx).1 (f v cs ctx).2 ctx).map Score.fin))
      else
        hgo scoreFn ctx origCands rest v cs
          (List.zipWith Score.max best
            ((scoreFn (f v cs ctx).1 (f v cs ctx).2 ctx).map Score.fin))
    else none

/-- Modelled from the spec: per-value heuristic scoring.  The base score
function output (checked against the candidate count, §4.1 contract) seeds
the best-so-far row, then the heuristic steps run in order. -/
def heuristicScores (cfg : MapperConfig) (v : Value) (candidates : List Candidate)
    (ctx : Ctx) : Option (List Score) :=
  if (cfg.scoreFn v candidates ctx).length = candidates.length then
    hgo cfg.scoreFn ctx candidates cfg.heuristics v candidates
      ((cfg.scoreFn v candidates ctx).map Score.fin)
  else none

/-- Modelled from the spec: static override lookup; context-specific
entries take precedence over the context-independent default level. -/
def staticLookup (cfg : MapperConfig) (ctx : Ctx) (v : Value) : Option Candidate :=
  match cfg.staticContextual ctx v with
  | some c => some c
  | none => cfg.staticDefault v

/-- Modelled from the spec: the override that settles a value, if any;
runtime overrides take precedence over static overrides. -/
def chooseOverride (cfg : MapperConfig) (v : Value) (candidates : List Candidate)
    (ctx : Ctx) : Option Candidate :=
  match cfg.overrideFn v candidates ctx with
  | some c => some c
  | none => staticLookup cfg ctx v

/-- Modelled from the spec: the union of the rejection sets of all
configured filters for a value. -/
def rejectedBy (cfg : MapperConfig) (v : Value) (candidates : List Candidate)
    (ctx : Ctx) : List Candidate :=
  cfg.filters.foldr (fun f acc => f v candidates ctx ++ acc) []

/-- Modelled from the spec: one row of the score matrix.  An override
(runtime before static) settles the whole row; otherwise heuristics/base
scoring run and filters force rejected candidates to `-inf` (the filter
level sits above the heuristic level in the documented hierarchy). -/
def computeRow (cfg : MapperConfig) (v : Value) (candidates : List Candidate)
    (ctx : Ctx) : Option (List Score) :=
  match chooseOverride cfg v candidates ctx with
  | some c => some (forcedRow candidates [c])
  | none =>
    match heuristicScores cfg v candidates ctx with
    | some hrow =>
      some ((candidates.zip hrow).map
        (fun p => if p.1 ∈ rejectedBy cfg v candidates ctx then Score.negInf else p.2))
    | none => none

/-- Modelled from the spec: build the score matrix row by row, in value
input order; any contract violation aborts the whole computation. -/
def buildRows (cfg : MapperConfig) (candidates : List Candidate) (ctx : Ctx) :
    List Value → Option (List (List Score))
  | [] => some []
  | v :: vs =>
    match computeRow cfg v candidates ctx, buildRows cfg candidates ctx vs with
    | some row, some rest => some (row :: rest)
    | _, _ => none

/-- Modelled from the spec: the score matrix builder (`Mapper.compute_scores`):
rows are values in input order, columns candidates in input order. -/
def computeScores (cfg : MapperConfig) (values : List Value)
    (candidates : List Candidate) (ctx : Ctx) : Option (List (List Score)) :=
  buildRows cfg candidates ctx values

/-! ## The cardinality-constrained matcher -/

/-- Entry of the score matrix at (value index, candidate index). -/
def matrixAt (M : List (List Score)) (vi ci : Nat) : Option Score :=
  M[vi]?.bind (fun row => row[ci]?)

/-- The (value index, candidate index, score) triples of one matrix row,
with the candidate index starting at `ci`. -/
def rowPairs (vi : Nat) : Nat → List Score → List (Nat × Nat × Score)
  | _, [] => []
  | ci, s :: rest => (vi, ci, s) :: rowPairs vi (ci + 1) rest

/-- All (value index, candidate index, score) triples of a matrix, row
major, with the value index starting at `vi`. -/
def allPairsAux : Nat → List (List Score) → List (Nat × Nat × Score)
  | _, [] => []
  | vi, row :: rest => rowPairs vi 0 row ++ allPairsAux (vi + 1) rest

/-- All (value index, candidate index, score) triples of a score matrix. -/
def allPairs (M : List (List Score)) : List (Nat × Nat × Score) := allPairsAux 0 M

/-- Modelled from the spec: the matcher's priority order over candidate
pairs: descending score first; among equal scores, the pair whose value
appears earlier in the input wins; among equal values, the earlier
candidate wins. -/
def pairBefore (p q : Nat × Nat × Score) : Bool :=
  Score.blt q.2.2 p.2.2 ||
    (decide (p.2.2 = q.2.2) &&
      (decide (p.1 < q.1) || (decide (p.1 = q.1) && decide (p.2.1 ≤ q.2.1))))

/-- Insert a pair into a list sorted by `pairBefore`. -/
def insertPair (p : Nat × Nat × Score) : List (Nat × Nat × Score) → List (Nat × Nat × Score)
  | [] => [p]
  | q :: qs => if pairBefore p q then p :: q :: qs else q :: insertPair p qs

/-- Sort candidate pairs into the matcher's priority order. -/
def sortPairs (l : List (Nat × Nat × Score)) : List (Nat × Nat × Score) :=
  l.foldr insertPair []

/-- State of the greedy matcher: accepted triples plus consumed value and
candidate indices. -/
structure MState where
  accepted : List (Nat × Nat × Score)
  usedV : List Nat
  usedC : List Nat

/-- Modelled from the spec: whether a pair's value/candidate is still free
under the exclusivity rules of the cardinality policy. -/
def freePair : Cardinality → MState → Nat × Nat × Score → Bool
  | .OneToOne, st, p => !(decide (p.1 ∈ st.usedV)) && !(decide (p.2.1 ∈ st.usedC))
  | .OneToMany, st, p => !(decide (p.2.1 ∈ st.usedC))
  | .ManyToOne, st, p => !(decide (p.1 ∈ st.usedV))
  | .ManyToMany, _, _ => true

/-- Modelled from the spec: one greedy step: accept the pair if its score
meets the threshold and the pair is free, marking value and candidate as
consumed; otherwise skip it. -/
def gstep (card : Cardinality) (t : ℚ) (st : MState) (p : Nat × Nat × Score) : MState :=
  if Score.ble (Score.fin t) p.2.2 && freePair card st p then
    { accepted := p :: st.accepted, usedV := p.1 :: st.usedV, usedC := p.2.1 :: st.usedC }
  else st

/-- Modelled from the spec: the greedy single-pass matcher: process the
candidate pairs in priority order, accepting each pair that meets the
threshold and is still free. -/
def matchGreedy (card : Cardinality) (t : ℚ) (M : List (List Score)) :
    List (Nat × Nat × Score) :=
  ((sortPairs (allPairs M)).foldl (gstep card t) ⟨[], [], []⟩).accepted.reverse

/-- The largest score of a row. -/
def bestOf (row : List Score) : Score := row.foldl Score.max Score.negInf

/-- How many entries of a row equal a given score. -/
def countEq (s : Score) (row : List Score) : Nat :=
  (row.filter (fun x => decide (x = s))).length

/-- Index of the first entry equal to a given score. -/
def firstIdxEq (s : Score) : List Score → Option Nat
  | [] => none
  | x :: rest =>
    if x = s then some 0 else (firstIdxEq s rest).map (fun i => i + 1)

/-- Modelled from the spec: `ManyToOne` row selection: a value is mapped
to its single highest-scoring acceptable candidate; a tie at the top is
ambiguous and leaves the value unmapped. -/
def rowPick (t : ℚ) (row : List Score) : Option Nat :=
  if Score.ble (Score.fin t) (bestOf row) && decide (countEq (bestOf row) row = 1) then
    firstIdxEq (bestOf row) row
  else none

/-- Modelled from the spec: the `ManyToOne` matcher, row by row. -/
def mtoAux (t : ℚ) : Nat → List (List Score) → List (Nat × Nat)
  | _, [] => []
  | vi, row :: rest =>
    match rowPick t row with
    | some ci => (vi, ci) :: mtoAux t (vi + 1) rest
    | none => mtoAux t (vi + 1) rest

/-- Modelled from the spec: the matching procedure
(`Mapper.to_directional_mapping`): resolve the score matrix into accepted
(value index, candidate index) pairs under the cardinality policy. -/
def toDirectionalMapping (card : Cardinality) (t : ℚ) (M : List (List Score)) :
    List (Nat × Nat) :=
  match card with
  | .ManyToMany =>
    ((allPairs M).filter (fun p => Score.ble (Score.fin t) p.2.2)).map
      (fun p => (p.1, p.2.1))
  | .ManyToOne => mtoAux t 0 M
  | c => (matchGreedy c t M).map (fun p => (p.1, p.2.1))

/-- The value indices left without any accepted pair. -/
def unmappedOf (n : Nat) (asg : List (Nat × Nat)) : List Nat :=
  (List.range n).filter (fun vi => decide (∀ p ∈ asg, p.1 ≠ vi))

/-- Modelled from the spec: the full mapping computation (`Mapper.apply`):
scoring followed by matching, returning the assignment (as index pairs)
and the unmapped value indices, or `none` on a contract violation. -/
def Mapper.apply (cfg : MapperConfig) (values : List Value)
    (candidates : List Candidate) (ctx : Ctx) :
    Option (List (Nat × Nat) × List Nat) :=
  match computeScores cfg values candidates ctx with
  | some M =>
    let asg := toDirectionalMapping cfg.cardinality cfg.threshold M
    some (asg, unmappedOf values.length asg)
  | none => none

/-- `Mapper.apply` with index pairs translated back to value and candidate
names. -/
def applyNamed (cfg : MapperConfig) (values : List Value)
    (candidates : List Candidate) (ctx : Ctx) :
    Option (List (Value × Candidate) × List Value) :=
  match Mapper.apply cfg values candidates ctx with
  | some (asg, unm) =>
    some (asg.map (fun p => (values.getD p.1 "", candidates.getD p.2 "")),
          unm.map (fun vi => values.getD vi ""))
  | none => none

/-! ## Invariant predicates and example configurations -/

/-- Invariant: accepted pairs have pairwise distinct value indices, all
recorded in `usedV`. -/
def VDistinct (st : MState) : Prop :=
  (∀ q ∈ st.accepted, q.1 ∈ st.usedV) ∧
    st.accepted.Pairwise (fun a b => a.1 ≠ b.1)

/-- Invariant: accepted pairs have pairwise distinct candidate indices, all
recorded in `usedC`. -/
def CDistinct (st : MState) : Prop :=
  (∀ q ∈ st.accepted, q.2.1 ∈ st.usedC) ∧
    st.accepted.Pairwise (fun a b => a.2.1 ≠ b.2.1)

/-- The documented ManyToOne tie-break scenario: score function returning
`[1, 0]` for `v0` and `[1, 1]` for `v1`, threshold `0.5`. -/
def cfgC1 : MapperConfig where
  scoreFn := fun v _ _ => if v = "v1" then [1, 1] else [1, 0]
  overrideFn := fun _ _ _ => none
  staticContextual := fun _ _ => none
  staticDefault := fun _ => none
  filters := []
  heuristics := []
  cardinality := .ManyToOne
  threshold := mkRat 1 2

/-- A configuration where a runtime override (choosing `b`) and a static
override (choosing `a`) both fire for value `v`. -/
def cfgC3 : MapperConfig where
  scoreFn := fun _ _ _ => [1, 0]
  overrideFn := fun v _ _ => if v = "v" then some "b" else none
  staticContextual := fun _ _ => none
  staticDefault := fun w => if w = "v" then some "a" else none
  filters := []
  heuristics := []
  cardinality := .ManyToOne
  threshold := 0

/-- A configuration whose single heuristic step is a short-circuit filter
selecting `c0`, while the base score function prefers `c1`. -/
def cfgC4 : MapperConfig where
  scoreFn := fun _ _ _ => [0, 1]
  overrideFn := fun _ _ _ => none
  staticContextual := fun _ _ => none
  staticDefault := fun _ => none
  filters := []
  heuristics := [HStep.shortCircuit (fun _ _ _ => ["c0"])]
  cardinality := .ManyToOne
  threshold := 0

/-- A configuration with a single alias heuristic step rewriting the value
to `w`, which the base score function scores differently. -/
def cfgC4a : MapperConfig where
  scoreFn := fun v _ _ => if v = "w" then [5, 0] else [0, 1]
  overrideFn := fun _ _ _ => none
  staticContextual := fun _ _ => none
  staticDefault := fun _ => none
  filters := []
  heuristics := [HStep.aliasStep false (fun _ cs _ => ("w", cs))]
  cardinality := .ManyToOne
  threshold := 0

/-- The documented short-circuit scenario: the base score function prefers
`villains` for `people`, but a short-circuit heuristic returns `humans`. -/
def cfgC6 : MapperConfig where
  scoreFn := fun _ _ _ => [1, 0]
  overrideFn := fun _ _ _ => none
  staticContextual := fun _ _ => none
  staticDefault := fun _ => none
  filters := []
  heuristics :=
    [HStep.shortCircuit (fun v _ _ => if v = "people" then ["humans"] else [])]
  cardinality := .ManyToOne
  threshold := mkRat 1 2

/-- Whether a string ends with the given suffix, implemented over
character lists so that it evaluates by reduction. -/
def strEndsWith (v suffix : String) : Bool :=
  List.isPrefixOf suffix.data.reverse v.data.reverse

/-- The documented filter scenario, parametrized over an arbitrary base
score function, cardinality and threshold: a filter rejecting every
candidate for values ending in `_date`. -/
def cfgC7 (sf : Value → List Candidate → Ctx → List ℚ) (card : Cardinality)
    (t : ℚ) : MapperConfig where
  scoreFn := sf
  overrideFn := fun _ _ _ => none
  staticContextual := fun _ _ => none
  staticDefault := fun _ => none
  filters := [fun v cands _ => if strEndsWith v "_date" then cands else []]
  heuristics := []
  cardinality := card
  threshold := t

/-- A configuration whose score function returns one score for two
candidates: a length contract violation. -/
def cfgC8 : MapperConfig where
  scoreFn := fun _ _ _ => [1]
  overrideFn := fun _ _ _ => none
  staticContextual := fun _ _ => none
  staticDefault := fun _ => none
  filters := []
  heuristics := []
  cardinality := .ManyToOne
  threshold := 0

/-- A small complete configuration used to exhibit determinism on a
concrete run. -/
def cfgC9 : MapperConfig where
  scoreFn := fun _ _ _ => [1]
  overrideFn := fun _ _ _ => none
  staticContextual := fun _ _ => none
  staticDefault := fun _ => none
  filters := []
  heuristics := []
  cardinality := .OneToOne
  threshold := 0

/-- A configuration, parametrized over the cardinality policy, in which a
runtime override chooses `c0` while a static override chooses `c1` for the
same value. -/
def cfgC10 (card : Cardinality) : MapperConfig where
  scoreFn := fun _ _ _ => [0, 0]
  overrideFn := fun _ _ _ => some "c0"
  staticContextual := fun _ _ => none
  staticDefault := fun _ => some "c1"
  filters := []
  heuristics := []
  cardinality := card
  threshold := 0

/-! ## Lemmas: candidate-pair enumeration -/

theorem rowPairs_sound {vi ci : Nat} {row : List Score} {vj cj : Nat} {s : Score}
    (h : (vj, cj, s) ∈ rowPairs vi ci row) :
    vj = vi ∧ ∃ m, cj = ci + m ∧ row[m]? = some s := by
  induction row generalizing ci with
  | nil => simp [rowPairs] at h
  | cons x rest ih =>
    simp only [rowPairs, List.mem_cons] at h
    rcases h with h | h
    · obtain ⟨h1, h2, h3⟩ : vj = vi ∧ cj = ci ∧ s = x := by
        simpa [Prod.ext_iff] using h
      subst h1; subst h2; subst h3
      exact ⟨rfl, 0, by simp⟩
    · obtain ⟨h1, m, h2, h3⟩ := ih h
      exact ⟨h1, m + 1, by omega, by simpa using h3⟩

theorem rowPairs_complete {vi ci : Nat} {row : List Score} {m : Nat} {s : Score}
    (h : row[m]? = some s) :
    (vi, ci + m, s) ∈ rowPairs vi ci row := by
  induction row generalizing ci m with
  | nil => simp at h
  | cons x rest ih =>
    cases m with
    | zero => simp at h; subst h; simp [rowPairs]
    | succ m =>
      simp only [List.getElem?_cons_succ] at h
      simp only [rowPairs, List.mem_cons]
      right
      have : ci + (m + 1) = ci + 1 + m := by omega
      rw [this]
      exact ih h

theorem allPairsAux_sound {vi : Nat} {M : List (List Score)} {vj cj : Nat} {s : Score}
    (h : (vj, cj, s) ∈ allPairsAux vi M) :
    ∃ k row, vj = vi + k ∧ M[k]? = some row ∧ row[cj]? = some s := by
  induction M generalizing vi with
  | nil => simp [allPairsAux] at h
  | cons row rest ih =>
    simp only [allPairsAux, List.mem_append] at h
    rcases h with h | h
    · obtain ⟨h1, m, h2, h3⟩ := rowPairs_sound h
      exact ⟨0, row, by omega, by simp, by simpa [h2] using h3⟩
    · obtain ⟨k, r, h1, h2, h3⟩ := ih h
      exact ⟨k + 1, r, by omega, by simpa using h2, h3⟩

theorem allPairsAux_complete {vi : Nat} {M : List (List Score)} {k cj : Nat}
    {row : List Score} {s : Score} (h1 : M[k]? = some row)
    (h2 : row[cj]? = some s) :
    (vi + k, cj, s) ∈ allPairsAux vi M := by
  induction M generalizing vi k with
  | nil => simp at h1
  | cons r rest ih =>
    cases k with
    | zero =>
      simp at h1; subst h1
      simp only [allPairsAux, List.mem_append]
      left
      simpa using @rowPairs_complete vi 0 r cj s h2
    | succ k =>
      simp only [List.getElem?_cons_succ] at h1
      simp only [allPairsAux, List.mem_append]
      right
      have : vi + (k + 1) = (vi + 1) + k := by omega
      rw [this]
      exact ih h1

theorem allPairs_sound {M : List (List Score)} {p : Nat × Nat × Score}
    (h : p ∈ allPairs M) : matrixAt M p.1 p.2.1 = some p.2.2 := by
  obtain ⟨vj, cj, s⟩ := p
  obtain ⟨k, row, h1, h2, h3⟩ := allPairsAux_sound h
  have h1' : vj = k := by omega
  subst h1'
  simp only [matrixAt, h2, Option.some_bind, h3]

theorem allPairs_complete {M : List (List Score)} {vi ci : Nat} {s : Score}
    (h : matrixAt M vi ci = some s) : (vi, ci, s) ∈ allPairs M := by
  cases hr : M[vi]? with
  | none => simp [matrixAt, hr] at h
  | some row =>
    simp only [matrixAt, hr, Option.some_bind] at h
    simpa using @allPairsAux_complete 0 M vi ci row s hr h

/-! ## Lemmas: the priority sort -/

theorem mem_insertPair {p q : Nat × Nat × Score} {l : List (Nat × Nat × Score)} :
    q ∈ insertPair p l ↔ q = p ∨ q ∈ l := by
  induction l with
  | nil => simp [insertPair]
  | cons x xs ih =>
    by_cases h : pairBefore p x = true
    · simp only [insertPair, if_pos h, List.mem_cons]
    · simp only [insertPair, if_neg h, List.mem_cons, ih]
      tauto

theorem mem_sortPairs {p : Nat × Nat × Score} {l : List (Nat × Nat × Score)} :
    p ∈ sortPairs l ↔ p ∈ l := by
  induction l with
  | nil => simp [sortPairs]
  | cons x xs ih =>
    simp only [sortPairs, List.foldr_cons] at *
    rw [mem_insertPair, ih, List.mem_cons]

/-! ## Lemmas: the greedy matcher -/

theorem foldl_gstep_accepted {card : Cardinality} {t : ℚ}
    {l : List (Nat × Nat × Score)} {st : MState} {q : Nat × Nat × Score}
    (h : q ∈ (l.foldl (gstep card t) st).accepted) :
    q ∈ st.accepted ∨ (q ∈ l ∧ Score.ble (Score.fin t) q.2.2 = true) := by
  induction l generalizing st with
  | nil => exact Or.inl h
  | cons p ps ih =>
    simp only [List.foldl_cons] at h
    rcases ih h with h' | h'
    · unfold gstep at h'
      by_cases hc : (Score.ble (Score.fin t) p.2.2 && freePair card st p) = true
      · rw [if_pos hc] at h'
        simp only [List.mem_cons] at h'
        rcases h' with rfl | h''
        · exact Or.inr ⟨List.mem_cons_self _ _, (Bool.and_eq_true ..).mp hc |>.1⟩
        · exact Or.inl h''
      · rw [if_neg hc] at h'
        exact Or.inl h'
    · exact Or.inr ⟨List.mem_cons_of_mem _ h'.1, h'.2⟩

theorem gstep_VDistinct {card : Cardinality}
    (hcard : card = Cardinality.OneToOne ∨ card = Cardinality.ManyToOne)
    {t : ℚ} {st : MState} {p : Nat × Nat × Score}
    (h : VDistinct st) : VDistinct (gstep card t st p) := by
  unfold gstep
  by_cases hc : (Score.ble (Score.fin t) p.2.2 && freePair card st p) = true
  · rw [if_pos hc]
    have hfree : p.1 ∉ st.usedV := by
      have h2 := ((Bool.and_eq_true ..).mp hc).2
      rcases hcard with rfl | rfl <;> simp_all [freePair, Bool.and_eq_true]
    constructor
    · intro q hq
      rcases List.mem_cons.mp hq with rfl | hq'
      · exact List.mem_cons_self _ _
      · exact List.mem_cons_of_mem _ (h.1 q hq')
    · refine List.Pairwise.cons ?_ h.2
      intro q hq heq
      exact hfree (heq ▸ h.1 q hq)
  · rw [if_neg hc]; exact h

theorem gstep_CDistinct {card : Cardinality}
    (hcard : card = Cardinality.OneToOne ∨ card = Cardinality.OneToMany)
    {t : ℚ} {st : MState} {p : Nat × Nat × Score}
    (h : CDistinct st) : CDistinct (gstep card t st p) := by
  unfold gstep
  by_cases hc : (Score.ble (Score.fin t) p.2.2 && freePair card st p) = true
  · rw [if_pos hc]
    have hfree : p.2.1 ∉ st.usedC := by
      have h2 := ((Bool.and_eq_true ..).mp hc).2
      rcases hcard with rfl | rfl <;>
        simp_all [freePair, Bool.and_eq_true]
    constructor
    · intro q hq
      rcases List.mem_cons.mp hq with rfl | hq'
      · exact List.mem_cons_self _ _
      · exact List.mem_cons_of_mem _ (h.1 q hq')
    · refine List.Pairwise.cons ?_ h.2
      intro q hq heq
      exact hfree (heq ▸ h.1 q hq)
  · rw [if_neg hc]; exact h

theorem foldl_pres {α : Type} {f : MState → α → MState} {P : MState → Prop}
    (hf : ∀ st p, P st → P (f st p)) :
    ∀ (l : List α) (st : MState), P st → P (l.foldl f st)
  | [], _, h => h
  | p :: ps, st, h => foldl_pres hf ps (f st p) (hf st p h)

theorem matchGreedy_VDistinct {card : Cardinality}
    (hcard : card = Cardinality.OneToOne ∨ card = Cardinality.ManyToOne)
    (t : ℚ) (M : List (List Score)) :
    (matchGreedy card t M).Pairwise (fun a b => a.1 ≠ b.1) := by
  have h : VDistinct ((sortPairs (allPairs M)).foldl (gstep card t) ⟨[], [], []⟩) :=
    foldl_pres (fun _ _ => gstep_VDistinct hcard) _ _ ⟨by simp, List.Pairwise.nil⟩
  unfold matchGreedy
  exact List.pairwise_reverse.mpr (h.2.imp fun hne => Ne.symm hne)

theorem matchGreedy_CDistinct {card : Cardinality}
    (hcard : card = Cardinality.OneToOne ∨ card = Cardinality.OneToMany)
    (t : ℚ) (M : List (List Score)) :
    (matchGreedy card t M).Pairwise (fun a b => a.2.1 ≠ b.2.1) := by
  have h : CDistinct ((sortPairs (allPairs M)).foldl (gstep card t) ⟨[], [], []⟩) :=
    foldl_pres (fun _ _ => gstep_CDistinct hcard) _ _ ⟨by simp, List.Pairwise.nil⟩
  unfold matchGreedy
  exact List.pairwise_reverse.mpr (h.2.imp fun hne => Ne.symm hne)

theorem mem_matchGreedy_score {card : Cardinality} {t : ℚ} {M : List (List Score)}
    {q : Nat × Nat × Score} (h : q ∈ matchGreedy card t M) :
    matrixAt M q.1 q.2.1 = some q.2.2 ∧ Score.ble (Score.fin t) q.2.2 = true := by
  unfold matchGreedy at h
  rw [List.mem_reverse] at h
  rcases foldl_gstep_accepted h with h' | h'
  · simp at h'
  · exact ⟨allPairs_sound (mem_sortPairs.mp h'.1), h'.2⟩

/-! ## Lemmas: the ManyToOne matcher -/

theorem firstIdxEq_sound {s : Score} {row : List Score} {i : Nat}
    (h : firstIdxEq s row = some i) : row[i]? = some s := by
  induction row generalizing i with
  | nil => simp [firstIdxEq] at h
  | cons x rest ih =>
    unfold firstIdxEq at h
    by_cases hx : x = s
    · rw [if_pos hx] at h
      injection h with h
      subst h
      simp [hx]
    · rw [if_neg hx] at h
      cases hr : firstIdxEq s rest with
      | none => rw [hr] at h; simp at h
      | some j =>
        rw [hr] at h
        simp only [Option.map_some'] at h
        injection h with h
        subst h
        simpa using ih hr

theorem rowPick_sound {t : ℚ} {row : List Score} {ci : Nat}
    (h : rowPick t row = some ci) :
    row[ci]? = some (bestOf row) ∧ Score.ble (Score.fin t) (bestOf row) = true := by
  unfold rowPick at h
  by_cases hg : (Score.ble (Score.fin t) (bestOf row) &&
      decide (countEq (bestOf row) row = 1)) = true
  · rw [if_pos hg] at h
    exact ⟨firstIdxEq_sound h, ((Bool.and_eq_true ..).mp hg).1⟩
  · rw [if_neg hg] at h
    simp at h

theorem mtoAux_sound {t : ℚ} {vi : Nat} {M : List (List Score)} {vj ci : Nat}
    (h : (vj, ci) ∈ mtoAux t vi M) :
    ∃ k row, vj = vi + k ∧ M[k]? = some row ∧ rowPick t row = some ci := by
  induction M generalizing vi with
  | nil => simp [mtoAux] at h
  | cons row rest ih =>
    unfold mtoAux at h
    cases hr : rowPick t row with
    | some c0 =>
      rw [hr] at h
      rcases List.mem_cons.mp h with he | h2
      · obtain ⟨h1, h2⟩ : vj = vi ∧ ci = c0 := by simpa [Prod.ext_iff] using he
        subst h1; subst h2
        exact ⟨0, row, by omega, by simp, hr⟩
      · obtain ⟨k, r, h1, h2, h3⟩ := ih h2
        exact ⟨k + 1, r, by omega, by simpa using h2, h3⟩
    | none =>
      rw [hr] at h
      obtain ⟨k, r, h1, h2, h3⟩ := ih h
      exact ⟨k + 1, r, by omega, by simpa using h2, h3⟩

theorem mtoAux_lb {t : ℚ} {vi : Nat} {M : List (List Score)} :
    ∀ q ∈ mtoAux t vi M, vi ≤ q.1 := by
  intro q hq
  obtain ⟨vj, ci⟩ := q
  obtain ⟨k, _, h1, _, _⟩ := mtoAux_sound hq
  simp only
  omega

theorem mtoAux_pairwise {t : ℚ} {vi : Nat} {M : List (List Score)} :
    (mtoAux t vi M).Pairwise (fun a b => a.1 ≠ b.1) := by
  induction M generalizing vi with
  | nil => simp [mtoAux]
  | cons row rest ih =>
    unfold mtoAux
    cases hr : rowPick t row with
    | some c0 =>
      refine List.Pairwise.cons ?_ ih
      intro q hq
      have := mtoAux_lb q hq
      simp only
      omega
    | none => exact ih

/-! ## Lemmas: assignment-level facts -/

/-- Every accepted pair of the matcher, under every cardinality policy,
refers to an existing matrix cell whose score meets the threshold. -/
theorem mem_asg_score {card : Cardinality} {t : ℚ} {M : List (List Score)}
    {vi ci : Nat} (h : (vi, ci) ∈ toDirectionalMapping card t M) :
    ∃ s, matrixAt M vi ci = some s ∧ Score.ble (Score.fin t) s = true := by
  cases card with
  | ManyToMany =>
    simp only [toDirectionalMapping] at h
    obtain ⟨p, hp, he⟩ := List.mem_map.mp h
    obtain ⟨hp1, hp2⟩ := List.mem_filter.mp hp
    obtain ⟨h1, h2⟩ : p.1 = vi ∧ p.2.1 = ci := by simpa [Prod.ext_iff] using he
    subst h1; subst h2
    exact ⟨p.2.2, allPairs_sound hp1, by simpa using hp2⟩
  | ManyToOne =>
    simp only [toDirectionalMapping] at h
    obtain ⟨k, row, h1, h2, h3⟩ := mtoAux_sound h
    have h1' : vi = k := by omega
    subst h1'
    obtain ⟨hg, hb⟩ := rowPick_sound h3
    exact ⟨bestOf row, by simp [matrixAt, h2, Option.some_bind, hg], hb⟩
  | OneToOne =>
    simp only [toDirectionalMapping] at h
    obtain ⟨p, hp, he⟩ := List.mem_map.mp h
    obtain ⟨h1, h2⟩ : p.1 = vi ∧ p.2.1 = ci := by simpa [Prod.ext_iff] using he
    subst h1; subst h2
    obtain ⟨hm, hb⟩ := mem_matchGreedy_score hp
    exact ⟨p.2.2, hm, hb⟩
  | OneToMany =>
    simp only [toDirectionalMapping] at h
    obtain ⟨p, hp, he⟩ := List.mem_map.mp h
    obtain ⟨h1, h2⟩ : p.1 = vi ∧ p.2.1 = ci := by simpa [Prod.ext_iff] using he
    subst h1; subst h2
    obtain ⟨hm, hb⟩ := mem_matchGreedy_score hp
    exact ⟨p.2.2, hm, hb⟩

theorem mem_unmappedOf {n : Nat} {asg : List (Nat × Nat)} {vi : Nat} :
    vi ∈ unmappedOf n asg ↔ vi < n ∧ ∀ p ∈ asg, p.1 ≠ vi := by
  simp [unmappedOf, List.mem_filter, List.mem_range]

/-! ## Lemmas: the scoring pipeline -/

theorem chooseOverride_runtime {cfg : MapperConfig} {v : Value}
    {cands : List Candidate} {ctx : Ctx} {c : Candidate}
    (h : cfg.overrideFn v cands ctx = some c) :
    chooseOverride cfg v cands ctx = some c := by
  simp [chooseOverride, h]

theorem computeRow_override {cfg : MapperConfig} {v : Value}
    {cands : List Candidate} {ctx : Ctx} {c : Candidate}
    (h : chooseOverride cfg v cands ctx = some c) :
    computeRow cfg v cands ctx = some (forcedRow cands [c]) := by
  simp [computeRow, h]

theorem forcedRow_at {cands chosen : List Candidate} {i : Nat} {c : Candidate}
    (h : cands[i]? = some c) :
    (forcedRow cands chosen)[i]? =
      some (if c ∈ chosen then Score.posInf else Score.negInf) := by
  simp [forcedRow, List.getElem?_map, h]

theorem mem_filterUnion {fs : List (Value → List Candidate → Ctx → List Candidate)}
    {v : Value} {cands : List Candidate} {ctx : Ctx} {c : Candidate} :
    c ∈ fs.foldr (fun f acc => f v cands ctx ++ acc) [] ↔
      ∃ f ∈ fs, c ∈ f v cands ctx := by
  induction fs with
  | nil =>
    constructor
    · intro h
      exact absurd h (List.not_mem_nil c)
    · rintro ⟨f, hf, _⟩
      exact absurd hf (List.not_mem_nil f)
  | cons g gs ih =>
    simp only [List.foldr_cons, List.mem_append, ih, List.mem_cons]
    constructor
    · rintro (h | ⟨f, hf, hc⟩)
      · exact ⟨g, Or.inl rfl, h⟩
      · exact ⟨f, Or.inr hf, hc⟩
    · rintro ⟨f, rfl | hf, hc⟩
      · exact Or.inl hc
      · exact Or.inr ⟨f, hf, hc⟩

theorem mem_rejectedBy {cfg : MapperConfig} {v : Value} {cands : List Candidate}
    {ctx : Ctx} {c : Candidate} :
    c ∈ rejectedBy cfg v cands ctx ↔ ∃ f ∈ cfg.filters, c ∈ f v cands ctx :=
  mem_filterUnion

theorem zip_at {α β : Type} {l1 : List α} {l2 : List β} {i : Nat} {a : α} {b : β}
    (h1 : l1[i]? = some a) (h2 : l2[i]? = some b) :
    (l1.zip l2)[i]? = some (a, b) := by
  induction l1 generalizing l2 i with
  | nil => simp at h1
  | cons x xs ih =>
    cases l2 with
    | nil => simp at h2
    | cons y ys =>
      cases i with
      | zero => simp_all
      | succ i => simpa using ih (by simpa using h1) (by simpa using h2)

theorem mem_of_getElemOpt {α : Type} {l : List α} {i : Nat} {a : α}
    (h : l[i]? = some a) : a ∈ l := by
  induction l generalizing i with
  | nil => simp at h
  | cons x xs ih =>
    cases i with
    | zero =>
      simp only [List.getElem?_cons_zero] at h
      injection h with h
      subst h
      exact List.mem_cons_self _ _
    | succ i => exact List.mem_cons_of_mem _ (ih (by simpa using h))

theorem buildRows_at {cfg : MapperConfig} {cands : List Candidate} {ctx : Ctx}
    {vs : List Value} {M : List (List Score)}
    (h : buildRows cfg cands ctx vs = some M) :
    ∀ {k : Nat} {v : Value}, vs[k]? = some v →
      M[k]? = computeRow cfg v cands ctx := by
  induction vs generalizing M with
  | nil => intro k v hv; simp at hv
  | cons w ws ih =>
    unfold buildRows at h
    cases hr : computeRow cfg w cands ctx with
    | none => simp [hr] at h
    | some row =>
      cases hb : buildRows cfg cands ctx ws with
      | none => simp [hr, hb] at h
      | some rest =>
        simp only [hr, hb] at h
        injection h with h
        subst h
        intro k v hv
        cases k with
        | zero =>
          simp only [List.getElem?_cons_zero] at hv ⊢
          injection hv with hv
          subst hv
          exact hr.symm
        | succ k =>
          simp only [List.getElem?_cons_succ] at hv ⊢
          exact ih hb hv

theorem buildRows_length {cfg : MapperConfig} {cands : List Candidate} {ctx : Ctx}
    {vs : List Value} {M : List (List Score)}
    (h : buildRows cfg cands ctx vs = some M) : M.length = vs.length := by
  induction vs generalizing M with
  | nil => unfold buildRows at h; injection h with h; subst h; rfl
  | cons w ws ih =>
    unfold buildRows at h
    cases hr : computeRow cfg w cands ctx with
    | none => simp [hr] at h
    | some row =>
      cases hb : buildRows cfg cands ctx ws with
      | none => simp [hr, hb] at h
      | some rest =>
        simp only [hr, hb] at h
        injection h with h
        subst h
        simpa using ih hb

theorem buildRows_fail {cfg : MapperConfig} {cands : List Candidate} {ctx : Ctx}
    {vs : List Value} {v : Value} (hv : v ∈ vs)
    (hrow : computeRow cfg v cands ctx = none) :
    buildRows cfg cands ctx vs = none := by
  induction vs with
  | nil => simp at hv
  | cons w ws ih =>
    unfold buildRows
    rcases List.mem_cons.mp hv with rfl | hv'
    · simp [hrow]
    · cases hr : computeRow cfg w cands ctx with
      | none => simp
      | some row => simp [ih hv']

theorem computeRow_contract_fail {cfg : MapperConfig} {v : Value}
    {cands : List Candidate} {ctx : Ctx}
    (hov : chooseOverride cfg v cands ctx = none)
    (hlen : (cfg.scoreFn v cands ctx).length ≠ cands.length) :
    computeRow cfg v cands ctx = none := by
  simp [computeRow, hov, heuristicScores, hlen]

/-! ## Lemmas: the heuristic composer -/

theorem Score.ble_trans {a b c : Score} (h1 : Score.ble a b = true)
    (h2 : Score.ble b c = true) : Score.ble a c = true := by
  cases a <;> cases b <;> cases c <;>
    simp_all [Score.ble, Score.blt, not_lt]
  exact le_trans h1 h2

theorem hgo_length {scoreFn : Value → List Candidate → Ctx → List ℚ} {ctx : Ctx}
    {origCands : List Candidate} {steps : List HStep} {v : Value}
    {cs : List Candidate} {best final : List Score}
    (hb : best.length = origCands.length)
    (h : hgo scoreFn ctx origCands steps v cs best = some final) :
    final.length = origCands.length := by
  induction steps generalizing v cs best with
  | nil =>
    unfold hgo at h
    injection h with h
    subst h
    exact hb
  | cons st rest ih =>
    cases st with
    | shortCircuit f =>
      unfold hgo at h
      by_cases he : (f v cs ctx).isEmpty = true
      · rw [if_pos he] at h
        exact ih hb h
      · rw [if_neg he] at h
        injection h with h
        subst h
        simp [forcedRow]
    | aliasStep dm f =>
      unfold hgo at h
      by_cases hl : ((scoreFn (f v cs ctx).1 (f v cs ctx).2 ctx).map Score.fin).length
          = best.length
      · rw [if_pos hl] at h
        have hlen2 : (List.zipWith Score.max best
            ((scoreFn (f v cs ctx).1 (f v cs ctx).2 ctx).map Score.fin)).length
            = origCands.length := by
          rw [List.length_zipWith, hl, Nat.min_self, hb]
        cases dm with
        | true => simpa using ih hlen2 (by simpa using h)
        | false => simpa using ih hlen2 (by simpa using h)
      · rw [if_neg hl] at h
        simp at h

theorem heuristicScores_length {cfg : MapperConfig} {v : Value}
    {cands : List Candidate} {ctx : Ctx} {final : List Score}
    (h : heuristicScores cfg v cands ctx = some final) :
    final.length = cands.length := by
  unfold heuristicScores at h
  by_cases hl : (cfg.scoreFn v cands ctx).length = cands.length
  · rw [if_pos hl] at h
    exact hgo_length (by simpa using hl) h
  · rw [if_neg hl] at h
    simp at h

theorem zipWith_max_getD {l1 l2 : List Score} (h : l1.length = l2.length) (i : Nat) :
    (List.zipWith Score.max l1 l2).getD i Score.negInf =
      Score.max (l1.getD i Score.negInf) (l2.getD i Score.negInf) := by
  induction l1 generalizing l2 i with
  | nil =>
    cases l2 with
    | nil => simp [Score.max, Score.blt]
    | cons y ys => simp at h
  | cons x xs ih =>
    cases l2 with
    | nil => simp at h
    | cons y ys =>
      cases i with
      | zero => simp
      | succ i => simpa using ih (by simpa using h) i

theorem hgo_mono {scoreFn : Value → List Candidate → Ctx → List ℚ} {ctx : Ctx}
    {origCands : List Candidate} {steps : List HStep}
    (hsteps : ∀ st ∈ steps, st.isAliasStep = true) {v : Value}
    {cs : List Candidate} {best final : List Score}
    (h : hgo scoreFn ctx origCands steps v cs best = some final) (i : Nat) :
    Score.ble (best.getD i Score.negInf) (final.getD i Score.negInf) = true := by
  induction steps generalizing v cs best with
  | nil =>
    unfold hgo at h
    injection h with h
    subst h
    exact Score.ble_refl _
  | cons st rest ih =>
    cases st with
    | shortCircuit f =>
      exact absurd (hsteps _ (List.mem_cons_self _ _)) (by simp [HStep.isAliasStep])
    | aliasStep dm f =>
      unfold hgo at h
      by_cases hl : ((scoreFn (f v cs ctx).1 (f v cs ctx).2 ctx).map Score.fin).length
          = best.length
      · rw [if_pos hl] at h
        have hsteps' : ∀ st ∈ rest, st.isAliasStep = true := fun st hst =>
          hsteps st (List.mem_cons_of_mem _ hst)
        have hble : Score.ble (best.getD i Score.negInf)
            ((List.zipWith Score.max best
              ((scoreFn (f v cs ctx).1 (f v cs ctx).2 ctx).map Score.fin)).getD i
              Score.negInf) = true := by
          rw [zipWith_max_getD hl.symm i]
          exact Score.ble_max_left _ _
        cases dm with
        | true => exact Score.ble_trans hble (ih hsteps' (by simpa using h) )
        | false => exact Score.ble_trans hble (ih hsteps' (by simpa using h))
      · rw [if_neg hl] at h
        simp at h

/-- For alias-only heuristic lists, the composed score of every pair is at
least the base score-function score of that pair. -/
theorem heuristicScores_mono {cfg : MapperConfig} {v : Value}
    {cands : List Candidate} {ctx : Ctx} {final : List Score}
    (hsteps : ∀ st ∈ cfg.heuristics, st.isAliasStep = true)
    (h : heuristicScores cfg v cands ctx = some final) (i : Nat) :
    Score.ble (((cfg.scoreFn v cands ctx).map Score.fin).getD i Score.negInf)
      (final.getD i Score.negInf) = true := by
  unfold heuristicScores at h
  by_cases hl : (cfg.scoreFn v cands ctx).length = cands.length
  · rw [if_pos hl] at h
    exact hgo_mono hsteps h i
  · rw [if_neg hl] at h
    simp at h

/-! ## Claim theorems -/

/-- C2: under OneToOne no value and no candidate appears in more than one
accepted pair; under ManyToOne no value appears twice; under OneToMany no
candidate appears twice; under ManyToMany every pair at or above the
threshold appears in the Assignment. -/
theorem claim2_cardinality_invariants (M : List (List Score)) (t : ℚ) :
    ((toDirectionalMapping Cardinality.OneToOne t M).Pairwise
        (fun a b => a.1 ≠ b.1) ∧
      (toDirectionalMapping Cardinality.OneToOne t M).Pairwise
        (fun a b => a.2 ≠ b.2)) ∧
    (toDirectionalMapping Cardinality.ManyToOne t M).Pairwise
      (fun a b => a.1 ≠ b.1) ∧
    (toDirectionalMapping Cardinality.OneToMany t M).Pairwise
      (fun a b => a.2 ≠ b.2) ∧
    (∀ vi ci s, matrixAt M vi ci = some s → Score.ble (Score.fin t) s = true →
      (vi, ci) ∈ toDirectionalMapping Cardinality.ManyToMany t M) := by
  refine ⟨⟨?_, ?_⟩, ?_, ?_, ?_⟩
  · simp only [toDirectionalMapping]
    exact List.pairwise_map.mpr (matchGreedy_VDistinct (Or.inl rfl) t M)
  · simp only [toDirectionalMapping]
    exact List.pairwise_map.mpr (matchGreedy_CDistinct (Or.inl rfl) t M)
  · simp only [toDirectionalMapping]
    exact mtoAux_pairwise
  · simp only [toDirectionalMapping]
    exact List.pairwise_map.mpr (matchGreedy_CDistinct (Or.inr rfl) t M)
  · intro vi ci s hm hb
    simp only [toDirectionalMapping]
    exact List.mem_map.mpr ⟨(vi, ci, s),
      List.mem_filter.mpr ⟨allPairs_complete hm, by simpa using hb⟩, rfl⟩

/-- Witness for C2 at a concrete matrix: the single above-threshold pair
of `[[1]]` is accepted under ManyToMany with threshold 0. -/
theorem claim2_witness :
    (0, 0) ∈ toDirectionalMapping Cardinality.ManyToMany 0 [[Score.fin 1]] :=
  (claim2_cardinality_invariants [[Score.fin 1]] 0).2.2.2 0 0 (Score.fin 1)
    (by decide) (by decide)

/-- C5: the threshold is inclusive: a pair scoring exactly the threshold is
accepted under ManyToMany; a pair scoring strictly below the threshold is
never accepted under any policy; a `+inf` pair is accepted under ManyToMany
whatever the threshold; a `-inf` pair is never accepted under any policy
whatever the threshold. -/
theorem claim5_threshold_boundary (M : List (List Score)) (t : ℚ) :
    (∀ vi ci, matrixAt M vi ci = some (Score.fin t) →
      (vi, ci) ∈ toDirectionalMapping Cardinality.ManyToMany t M) ∧
    (∀ card vi ci s, matrixAt M vi ci = some s →
      Score.blt s (Score.fin t) = true →
      (vi, ci) ∉ toDirectionalMapping card t M) ∧
    (∀ vi ci, matrixAt M vi ci = some Score.posInf →
      (vi, ci) ∈ toDirectionalMapping Cardinality.ManyToMany t M) ∧
    (∀ card vi ci, matrixAt M vi ci = some Score.negInf →
      (vi, ci) ∉ toDirectionalMapping card t M) := by
  refine ⟨?_, ?_, ?_, ?_⟩
  · intro vi ci hm
    simp only [toDirectionalMapping]
    refine List.mem_map.mpr ⟨(vi, ci, Score.fin t),
      List.mem_filter.mpr ⟨allPairs_complete hm, ?_⟩, rfl⟩
    simp [Score.ble_fin_fin]
  · intro card vi ci s hm hlt hmem
    obtain ⟨s', hm', hb⟩ := mem_asg_score hmem
    rw [hm] at hm'
    injection hm' with hm'
    subst hm'
    simp [Score.ble, hlt] at hb
  · intro vi ci hm
    simp only [toDirectionalMapping]
    exact List.mem_map.mpr ⟨(vi, ci, Score.posInf),
      List.mem_filter.mpr ⟨allPairs_complete hm, by simp [Score.ble_posInf]⟩, rfl⟩
  · intro card vi ci hm hmem
    obtain ⟨s', hm', hb⟩ := mem_asg_score hmem
    rw [hm] at hm'
    injection hm' with hm'
    subst hm'
    exact absurd hb (by simp [Score.not_ble_negInf])

/-- Witness for C5 at a concrete matrix: the pair of `[[0]]` scoring below
threshold 1 is rejected under ManyToOne. -/
theorem claim5_witness :
    (0, 0) ∉ toDirectionalMapping Cardinality.ManyToOne 1 [[Score.fin 0]] :=
  (claim5_threshold_boundary [[Score.fin 0]] 1).2.1 Cardinality.ManyToOne 0 0
    (Score.fin 0) (by decide) (by decide)

/-- C8: a score function returning the wrong number of scores for a value
reached by scoring is a fatal contract violation: the whole mapping call
produces no Assignment at all (it is not converted into an unmapped value
or any other recoverable outcome). -/
theorem claim8_contract_violation (cfg : MapperConfig) (values : List Value)
    (cands : List Candidate) (ctx : Ctx) (v : Value) (hv : v ∈ values)
    (hov : chooseOverride cfg v cands ctx = none)
    (hbad : (cfg.scoreFn v cands ctx).length ≠ cands.length) :
    Mapper.apply cfg values cands ctx = none ∧
    ∀ asg unm, Mapper.apply cfg values cands ctx ≠ some (asg, unm) := by
  have h := buildRows_fail hv (computeRow_contract_fail hov hbad)
  constructor
  · simp [Mapper.apply, computeScores, h]
  · intro asg unm
    simp [Mapper.apply, computeScores, h]

/-- Witness for C8: a score function returning one score for two
candidates aborts the whole mapping call. -/
theorem claim8_witness : Mapper.apply cfgC8 ["v"] ["a", "b"] "" = none :=
  (claim8_contract_violation cfgC8 ["v"] ["a", "b"] "" "v" (by decide)
    (by decide) (by decide)).1

/-- C9: the full mapping computation is deterministic: two runs on
identical inputs produce identical results. -/
theorem claim9_determinism (cfg : MapperConfig) (values : List Value)
    (cands : List Candidate) (ctx : Ctx)
    (r1 r2 : Option (List (Nat × Nat) × List Nat))
    (h1 : r1 = Mapper.apply cfg values cands ctx)
    (h2 : r2 = Mapper.apply cfg values cands ctx) : r1 = r2 :=
  h1.trans h2.symm

/-- Witness for C9 on a concrete run. -/
theorem claim9_witness :
    some ([(0, 0)], ([] : List Nat)) = Mapper.apply cfgC9 ["x"] ["a"] "" ∧
    Mapper.apply cfgC9 ["x"] ["a"] "" = Mapper.apply cfgC9 ["x"] ["a"] "" := by
  constructor
  · decide
  · exact claim9_determinism cfgC9 ["x"] ["a"] "" _ _ rfl rfl

/-- C1: ties in score are broken by input order: among equal-score pairs
the matcher's priority order ranks the pair with the earlier value index
first, and among equal value indices the pair with the earlier candidate
index first; and the documented ManyToOne scenario (threshold 0.5, scores
`[1,0]` for `v0`, `[1,1]` for `v1`) yields exactly `{v0: c0}` with `v1`
unmapped. -/
theorem claim1_tie_break_and_scenario :
    (∀ p q : Nat × Nat × Score, p.2.2 = q.2.2 →
      (pairBefore p q = true ↔ p.1 < q.1 ∨ (p.1 = q.1 ∧ p.2.1 ≤ q.2.1))) ∧
    applyNamed cfgC1 ["v0", "v1"] ["c0", "c1"] "" =
      some ([("v0", "c0")], ["v1"]) := by
  constructor
  · intro p q heq
    simp [pairBefore, heq, Score.blt_irrefl]
  · decide

/-- Witness for C1 at a concrete pair of equal-score pairs. -/
theorem claim1_witness :
    (pairBefore (0, 0, Score.fin 1) (1, 0, Score.fin 1) = true ↔
      0 < 1 ∨ (0 = 1 ∧ 0 ≤ 0)) ∧
    applyNamed cfgC1 ["v0", "v1"] ["c0", "c1"] "" =
      some ([("v0", "c0")], ["v1"]) :=
  ⟨claim1_tie_break_and_scenario.1 (0, 0, Score.fin 1) (1, 0, Score.fin 1) rfl,
    claim1_tie_break_and_scenario.2⟩

/-- C3: a fired runtime override forces the chosen pair to +inf and every
other candidate of that value to -inf, wins over a simultaneously firing
static override, and the final Assignment never maps that value to any
other candidate, under every cardinality policy and regardless of the base
score function. -/
theorem claim3_runtime_override (cfg : MapperConfig) (v : Value)
    (cands : List Candidate) (ctx : Ctx) (c : Candidate)
    (hfire : cfg.overrideFn v cands ctx = some c) :
    computeRow cfg v cands ctx = some (forcedRow cands [c]) ∧
    (∀ (i : Nat) (c' : Candidate), cands[i]? = some c' →
      (forcedRow cands [c])[i]? =
        some (if c' = c then Score.posInf else Score.negInf)) ∧
    (∀ c2, staticLookup cfg ctx v = some c2 →
      chooseOverride cfg v cands ctx = some c) ∧
    (∀ values M vi ci,
      computeScores cfg values cands ctx = some M → values[vi]? = some v →
      (vi, ci) ∈ toDirectionalMapping cfg.cardinality cfg.threshold M →
      cands[ci]? = some c) := by
  have hov := @chooseOverride_runtime cfg v cands ctx c hfire
  refine ⟨computeRow_override hov, ?_, ?_, ?_⟩
  · intro i c' hc
    rw [forcedRow_at hc]
    simp
  · intro c2 _
    exact hov
  · intro values M vi ci hM hv hmem
    obtain ⟨s, hm, hb⟩ := mem_asg_score hmem
    have hrow : M[vi]? = some (forcedRow cands [c]) := by
      have h := buildRows_at (show buildRows cfg cands ctx values = some M from hM) hv
      rw [h, computeRow_override hov]
    simp only [matrixAt, hrow, Option.some_bind] at hm
    simp only [forcedRow, List.getElem?_map] at hm
    cases hc : cands[ci]? with
    | none => rw [hc] at hm; simp at hm
    | some c' =>
      rw [hc] at hm
      simp only [Option.map_some'] at hm
      injection hm with hm
      by_cases hcc : c' ∈ [c]
      · rw [List.mem_singleton] at hcc
        rw [hcc]
      · rw [if_neg hcc] at hm
        rw [← hm] at hb
        exact absurd hb (by simp [Score.not_ble_negInf])

/-- Witness for C3 on a concrete configuration where a runtime override
(choosing `b`) and a static override (choosing `a`) both fire. -/
theorem claim3_witness :
    computeRow cfgC3 "v" ["a", "b"] "" = some (forcedRow ["a", "b"] ["b"]) ∧
    (["a", "b"] : List Candidate)[1]? = some "b" := by
  have h := claim3_runtime_override cfgC3 "v" ["a", "b"] "" "b" (by decide)
  exact ⟨h.1, h.2.2.2 ["v"] [[Score.negInf, Score.posInf]] 0 1 (by decide)
    (by decide) (by decide)⟩

/-- C6: a short-circuit heuristic step returning a non-empty candidate
list forces those candidates to +inf and all others to -inf for that
value (whatever steps follow are skipped), and the documented scenario
maps `people` to `humans` although the base score prefers `villains`. -/
theorem claim6_short_circuit (scoreFn : Value → List Candidate → Ctx → List ℚ)
    (ctx : Ctx) (origCands : List Candidate)
    (f : Value → List Candidate → Ctx → List Candidate) (rest : List HStep)
    (v : Value) (cs : List Candidate) (best : List Score)
    (hne : (f v cs ctx).isEmpty = false) :
    hgo scoreFn ctx origCands (HStep.shortCircuit f :: rest) v cs best =
      some (forcedRow origCands (f v cs ctx)) ∧
    (∀ (i : Nat) (c : Candidate), origCands[i]? = some c →
      (forcedRow origCands (f v cs ctx))[i]? =
        some (if c ∈ f v cs ctx then Score.posInf else Score.negInf)) ∧
    applyNamed cfgC6 ["people"] ["villains", "humans"] "" =
      some ([("people", "humans")], []) := by
  refine ⟨?_, ?_, by decide⟩
  · unfold hgo
    rw [if_neg (by simp [hne])]
  · intro i c hc
    exact forcedRow_at hc

/-- Witness for C6 on the concrete scenario configuration. -/
theorem claim6_witness :
    applyNamed cfgC6 ["people"] ["villains", "humans"] "" =
      some ([("people", "humans")], []) :=
  (claim6_short_circuit cfgC6.scoreFn "" ["villains", "humans"]
    (fun v _ _ => if v = "people" then ["humans"] else []) [] "people"
    ["villains", "humans"] [Score.fin 1, Score.fin 0] (by decide)).2.2

/-- C10 counterexample: with a runtime override choosing `c0` and a static
override choosing `c1` — the static one being the override applied last in
the spec's per-value application order — the forced +inf lands on the
runtime override's candidate `c0`, not the last-applied one, and the other
candidate's score is an unconditional -inf, identical under different
cardinality policies. -/
theorem claim10_counterexample :
    computeRow (cfgC10 Cardinality.OneToOne) "v" ["c0", "c1"] "" =
      some [Score.posInf, Score.negInf] ∧
    computeRow (cfgC10 Cardinality.ManyToMany) "v" ["c0", "c1"] "" =
      some [Score.posInf, Score.negInf] ∧
    staticLookup (cfgC10 Cardinality.OneToOne) "" "v" = some "c1" ∧
    (cfgC10 Cardinality.OneToOne).overrideFn "v" ["c0", "c1"] "" = some "c0" :=
  ⟨by decide, by decide, by decide, by decide⟩

/-- C10 amended: when a runtime and a static override both fire for the
same value, the hierarchically higher runtime override chooses the forced
+inf match; every other candidate is forced to -inf unconditionally; and
the scoring stage is independent of the cardinality policy. -/
theorem claim10_amended (cfg : MapperConfig) (v : Value)
    (cands : List Candidate) (ctx : Ctx) (c c2 : Candidate)
    (hrt : cfg.overrideFn v cands ctx = some c)
    (_hst : staticLookup cfg ctx v = some c2) :
    computeRow cfg v cands ctx = some (forcedRow cands [c]) ∧
    (∀ (i : Nat) (c' : Candidate), cands[i]? = some c' → c' ≠ c →
      (forcedRow cands [c])[i]? = some Score.negInf) ∧
    (∀ card, computeRow { cfg with cardinality := card } v cands ctx =
      computeRow cfg v cands ctx) := by
  refine ⟨computeRow_override (chooseOverride_runtime hrt), ?_, fun card => rfl⟩
  intro i c' hc hne
  rw [forcedRow_at hc, if_neg (by simp [hne])]

/-- Witness for C10 on the concrete conflicting-override configuration. -/
theorem claim10_witness :
    computeRow (cfgC10 Cardinality.ManyToOne) "v" ["c0", "c1"] "" =
      some (forcedRow ["c0", "c1"] ["c0"]) ∧
    computeRow { cfgC10 Cardinality.ManyToOne with
        cardinality := Cardinality.OneToOne } "v" ["c0", "c1"] "" =
      computeRow (cfgC10 Cardinality.ManyToOne) "v" ["c0", "c1"] "" := by
  have h := claim10_amended (cfgC10 Cardinality.ManyToOne) "v" ["c0", "c1"] ""
    "c0" "c1" (by decide) (by decide)
  exact ⟨h.1, h.2.2 Cardinality.OneToOne⟩

/-- C4 counterexample: with a short-circuit heuristic step selecting `c0`,
the post-heuristic score of the pair (v, c1) is -inf, strictly below its
base score of 1: the unrestricted monotonicity claim is false. -/
theorem claim4_counterexample :
    ¬ (∀ (cfg : MapperConfig) (v : Value) (cands : List Candidate) (ctx : Ctx)
        (final : List Score), heuristicScores cfg v cands ctx = some final →
        ∀ i : Nat,
          Score.ble (((cfg.scoreFn v cands ctx).map Score.fin).getD i Score.negInf)
            (final.getD i Score.negInf) = true) := by
  intro h
  have h2 := h cfgC4 "v" ["c0", "c1"] "" [Score.posInf, Score.negInf] (by decide) 1
  have h3 : Score.ble (((cfgC4.scoreFn "v" ["c0", "c1"] "").map Score.fin).getD 1
      Score.negInf) (([Score.posInf, Score.negInf] : List Score).getD 1 Score.negInf)
      = false := by decide
  exact Bool.noConfusion (h2.symm.trans h3)

/-- C4 amended: for heuristic lists consisting only of alias steps (so no
short-circuit fires), the post-heuristic score of every pair is at least
the base score-function score of that pair. -/
theorem claim4_amended (cfg : MapperConfig) (v : Value)
    (cands : List Candidate) (ctx : Ctx) (final : List Score)
    (hsteps : ∀ st ∈ cfg.heuristics, st.isAliasStep = true)
    (h : heuristicScores cfg v cands ctx = some final) (i : Nat) :
    Score.ble (((cfg.scoreFn v cands ctx).map Score.fin).getD i Score.negInf)
      (final.getD i Score.negInf) = true :=
  heuristicScores_mono hsteps h i

/-- Witness for C4 (amended) on a concrete alias-only configuration. -/
theorem claim4_witness :
    Score.ble (((cfgC4a.scoreFn "v" ["c0", "c1"] "").map Score.fin).getD 0
      Score.negInf) (([Score.fin 5, Score.fin 1] : List Score).getD 0 Score.negInf)
      = true :=
  claim4_amended cfgC4a "v" ["c0", "c1"] "" [Score.fin 5, Score.fin 1]
    (by
      intro st hst
      simp only [cfgC4a] at hst
      rw [List.mem_singleton] at hst
      subst hst
      rfl)
    (by decide) 0

/-- C7: filters only force rejected candidates to -inf and never force an
accept (an unrejected candidate keeps its heuristic/base score); multiple
filters compose by union of their rejection sets; and the documented
scenario value `rental_date`, under a filter rejecting every candidate of
values ending in `_date`, is never assigned and is reported unmapped,
regardless of the base score function, threshold, and cardinality. -/
theorem claim7_filters (cfg : MapperConfig) (v : Value)
    (cands : List Candidate) (ctx : Ctx)
    (hov : chooseOverride cfg v cands ctx = none) :
    (∀ hrow final, heuristicScores cfg v cands ctx = some hrow →
      computeRow cfg v cands ctx = some final →
      ∀ (i : Nat) (c : Candidate) (s : Score),
        cands[i]? = some c → hrow[i]? = some s →
        final[i]? =
          some (if c ∈ rejectedBy cfg v cands ctx then Score.negInf else s)) ∧
    (∀ c : Candidate, c ∈ rejectedBy cfg v cands ctx ↔
      ∃ f ∈ cfg.filters, c ∈ f v cands ctx) ∧
    (∀ (sf : Value → List Candidate → Ctx → List ℚ) (card : Cardinality) (t : ℚ),
      (sf "rental_date" ["c0", "c1"] "").length = 2 →
      applyNamed (cfgC7 sf card t) ["rental_date"] ["c0", "c1"] "" =
        some ([], ["rental_date"])) := by
  refine ⟨?_, fun c => mem_rejectedBy, ?_⟩
  · intro hrow final hh hf i c s hc hs
    simp only [computeRow, hov, hh] at hf
    injection hf with hf
    subst hf
    rw [List.getElem?_map, zip_at hc hs]
    simp only [Option.map_some']
  · intro sf card t hlen
    have hov7 : chooseOverride (cfgC7 sf card t) "rental_date" ["c0", "c1"] ""
        = none := rfl
    have hh : heuristicScores (cfgC7 sf card t) "rental_date" ["c0", "c1"] "" =
        some ((sf "rental_date" ["c0", "c1"] "").map Score.fin) := by
      unfold heuristicScores
      have hcond : ((cfgC7 sf card t).scoreFn "rental_date" ["c0", "c1"] "").length
          = (["c0", "c1"] : List Candidate).length := by
        simpa [cfgC7] using hlen
      rw [if_pos hcond]
      rfl
    obtain ⟨q0, q1, hq⟩ := List.length_eq_two.mp hlen
    have hcr : computeRow (cfgC7 sf card t) "rental_date" ["c0", "c1"] "" =
        some [Score.negInf, Score.negInf] := by
      simp only [computeRow, hov7, hh]
      rw [hq]
      rfl
    have hM : computeScores (cfgC7 sf card t) ["rental_date"] ["c0", "c1"] "" =
        some [[Score.negInf, Score.negInf]] := by
      simp only [computeScores, buildRows, hcr]
    have hasg : toDirectionalMapping card t [[Score.negInf, Score.negInf]] = [] := by
      refine List.eq_nil_iff_forall_not_mem.mpr ?_
      intro p hp
      obtain ⟨vi, ci⟩ := p
      obtain ⟨s, hm, hb⟩ := mem_asg_score hp
      simp only [matrixAt] at hm
      cases hr : ([[Score.negInf, Score.negInf]] : List (List Score))[vi]? with
      | none => rw [hr] at hm; simp at hm
      | some row =>
        rw [hr] at hm
        simp only [Option.some_bind] at hm
        have hrow : row = [Score.negInf, Score.negInf] := by
          simpa using mem_of_getElemOpt hr
        subst hrow
        have hs : s = Score.negInf := by
          have := mem_of_getElemOpt hm
          simpa using this
        subst hs
        exact absurd hb (by simp [Score.not_ble_negInf])
    have hcard : (cfgC7 sf card t).cardinality = card := rfl
    have hthr : (cfgC7 sf card t).threshold = t := rfl
    simp only [applyNamed, Mapper.apply, hM, hcard, hthr, hasg]
    rfl

/-- Witness for C7 on a concrete base score function. -/
theorem claim7_witness :
    applyNamed (cfgC7 (fun _ _ _ => [7, 9]) Cardinality.ManyToOne 1)
      ["rental_date"] ["c0", "c1"] "" = some ([], ["rental_date"]) :=
  (claim7_filters (cfgC7 (fun _ _ _ => [7, 9]) Cardinality.ManyToOne 1)
    "rental_date" ["c0", "c1"] "" rfl).2.2 (fun _ _ _ => [7, 9])
    Cardinality.ManyToOne 1 (by decide)

end RicsMapping
